import Mathlib

/-!
Verification of the `binarysearchtree` Rust crate (`src/lib.rs`).

The crate implements an intrusive binary search tree over raw pointers:
each `Node<T>` is an individually heap-allocated record with an `item`,
a non-owning `parent` back-pointer and owning `left`/`right` child
pointers; `BinarySearchTree<T>` holds the optional root pointer.

We embed the code shallowly: machine addresses become `Nat`, the Rust
heap becomes an explicit partial map from addresses to node records, and
every raw-pointer dereference is checked against that map.  Reading,
writing or freeing an address that is not currently allocated is
undefined behaviour in the Rust source; the embedding makes each such
access an explicit failure, so every operation returns `Option`-wrapped
results, `none` marking a run that hit undefined behaviour (or, for the
fuel-bounded recursions, a run that would not terminate).  Addresses are
never reused: allocation hands out `next` and increments it, which keeps
freed addresses distinguishable from live ones exactly the way an
allocation-tracking allocator would.

Recursion in the source walks the pointer graph, which is not a
structural recursion, so each recursive function takes a fuel
parameter.  The public API passes `heap.next + 1` as fuel: the depth of
any acyclic reachable structure is bounded by the number of allocations
ever performed, so on sane states the fuel never runs out (this is
proved where needed); a cyclic state would make the Rust code loop
forever, which the embedding maps to `none`.
-/

/-- One heap cell: the Rust struct `Node<T>` with `T = i64`-like integer
keys, pointers replaced by optional addresses. -/
structure Node where
  item : Int
  parent : Option Nat
  left : Option Nat
  right : Option Nat
deriving DecidableEq

/-- The Rust heap restricted to `Node` cells: a partial map from
addresses to records, plus the next fresh address.  Addresses are never
reused. -/
structure Heap where
  mem : Nat → Option Node
  next : Nat

/-- Dereference an address (Rust `as_ref`/`as_mut`); `none` when the
address is not currently allocated, i.e. the dereference is UB. -/
def Heap.read (h : Heap) (a : Nat) : Option Node :=
  h.mem a

/-- Overwrite the record stored at an (assumed live) address. -/
def Heap.write (h : Heap) (a : Nat) (nd : Node) : Heap :=
  ⟨fun b => if b = a then some nd else h.mem b, h.next⟩

/-- `Box::new`: allocate a fresh cell, returning the new heap and the
address. -/
def Heap.alloc (h : Heap) (nd : Node) : Heap × Nat :=
  (⟨fun b => if b = h.next then some nd else h.mem b, h.next + 1⟩, h.next)

/-- `Box::from_raw` followed by dropping the box: deallocate.  Freeing
an address that is not live is a double free / invalid free, hence
`none`. -/
def Heap.free (h : Heap) (a : Nat) : Option Heap :=
  match h.mem a with
  | none => none
  | some _ => some ⟨fun b => if b = a then none else h.mem b, h.next⟩

/-- Which child field of a node a slot refers to. -/
inductive Side where
  | l
  | r
deriving DecidableEq

/-- Project the side field of a node record. -/
def Node.side (nd : Node) : Side → Option Nat
  | .l => nd.left
  | .r => nd.right

/-- Replace the side field of a node record. -/
def Node.setSide (nd : Node) : Side → Option Nat → Node
  | .l, v => { nd with left := v }
  | .r, v => { nd with right := v }

/-- A Rust `&mut Option<NonNull<Node<T>>>` place, as passed to
`insert_node`: either a temporary local (writes to it are lost when it
goes out of scope, which is what `BinarySearchTree::insert` passes with
`&mut Some(root)`), or the left/right field of the node at an address. -/
inductive Slot where
  | tmp (v : Option Nat)
  | fieldOf (sd : Side) (a : Nat)

/-- Read the current content of a slot. -/
def Slot.read (h : Heap) : Slot → Option (Option Nat)
  | .tmp v => some v
  | .fieldOf sd a => (h.read a).map (fun nd => nd.side sd)

/-- Write a value through a slot.  A write through `tmp` updates only
the temporary, hence changes nothing observable. -/
def Slot.write (h : Heap) (s : Slot) (v : Option Nat) : Option Heap :=
  match s with
  | .tmp _ => some h
  | .fieldOf sd a =>
    match h.read a with
    | none => none
    | some nd => some (h.write a (nd.setSide sd v))

/-- `insert_node` from `src/lib.rs`: walk from the given slot, going
left when `item < leaf.item` and right otherwise, and allocate the new
node in the first empty slot, with `parent` set to the node whose slot
it fills. -/
def insert_node : Nat → Heap → Slot → Int → Option Nat → Option Heap
  | 0, _, _, _, _ => none
  | fuel + 1, h, s, item, parent =>
    match s.read h with
    | none => none
    | some (some leaf) =>
      match h.read leaf with
      | none => none
      | some nd =>
        if item < nd.item then
          insert_node fuel h (.fieldOf .l leaf) item (some leaf)
        else
          insert_node fuel h (.fieldOf .r leaf) item (some leaf)
    | some none =>
      let (h1, addr) := h.alloc ⟨item, parent, none, none⟩
      Slot.write h1 s (some addr)

/-- `search_node` from `src/lib.rs`: classic BST descent; the boolean
accumulator `calledOnce` is `true` exactly when the match happened at
the very first visited node (used by `delete` to detect a root match). -/
def search_node : Nat → Heap → Option Nat → Int → Bool → Option (Bool × Option Nat)
  | 0, _, _, _, _ => none
  | fuel + 1, h, l, item, calledOnce =>
    match l with
    | some leaf =>
      match h.read leaf with
      | none => none
      | some nd =>
        match compare item nd.item with
        | .eq => some (calledOnce, some leaf)
        | .lt => search_node fuel h nd.left item false
        | .gt => search_node fuel h nd.right item false
    | none => some (calledOnce, none)

/-- The `while let Some(left) = ...` chase shared by the two-children
case of `delete_node` (finding the in-order successor) and by
`find_minimum`: follow `left` pointers until a node has none. -/
def chase_left : Nat → Heap → Nat → Option Nat
  | 0, _, _ => none
  | fuel + 1, h, cur =>
    match h.read cur with
    | none => none
    | some nd =>
      match nd.left with
      | none => some cur
      | some l => chase_left fuel h l

/-- The mirrored chase used by `find_maximum`: follow `right` pointers
until a node has none. -/
def chase_right : Nat → Heap → Nat → Option Nat
  | 0, _, _ => none
  | fuel + 1, h, cur =>
    match h.read cur with
    | none => none
    | some nd =>
      match nd.right with
      | none => some cur
      | some r => chase_right fuel h r

/-- `delete_node` from `src/lib.rs`.  Returns the updated heap and the
`bool` the Rust function returns (`true` iff the leaf case ran).  The
three cases are translated literally:
leaf: free the node (the caller's child slot is NOT cleared here);
one child: free the child after copying its `item`/`left`/`right` into
the node (parent pointers of the grandchildren are NOT updated);
two children: find the leftmost node of the right subtree, free it,
clear its parent's `left` field, and copy its `item`/`left`/`right`
over the node's fields. -/
def delete_node (fuel : Nat) (h : Heap) (node : Option Nat) : Option (Heap × Bool) :=
  match node with
  | none => some (h, false)
  | some a =>
    match h.read a with
    | none => none
    | some nd =>
      match nd.left, nd.right with
      | none, none =>
        (h.free a).map (fun h1 => (h1, true))
      | none, some right =>
        match h.read right with
        | none => none
        | some child =>
          match h.free right with
          | none => none
          | some h1 =>
            some (h1.write a { nd with right := child.right, left := child.left, item := child.item }, false)
      | some left, none =>
        match h.read left with
        | none => none
        | some child =>
          match h.free left with
          | none => none
          | some h1 =>
            some (h1.write a { nd with right := child.right, left := child.left, item := child.item }, false)
      | some _, some right =>
        match chase_left fuel h right with
        | none => none
        | some nb =>
          match h.read nb with
          | none => none
          | some nbNode =>
            match h.free nb with
            | none => none
            | some h1 =>
              match nbNode.parent with
              | some p =>
                match h1.read p with
                | none => none
                | some pnd =>
                  let h2 := h1.write p { pnd with left := none }
                  match h2.read a with
                  | none => none
                  | some nd2 =>
                    some (h2.write a { nd2 with left := nbNode.left, right := nbNode.right, item := nbNode.item }, false)
              | none =>
                match h1.read a with
                | none => none
                | some nd2 =>
                  some (h1.write a { nd2 with left := nbNode.left, right := nbNode.right, item := nbNode.item }, false)

/-- `find_minimum` from `src/lib.rs`: follow `left` from the given
node, then return that node's item. -/
def find_minimum (fuel : Nat) (h : Heap) (t : Option Nat) : Option (Option Int) :=
  match t with
  | none => some none
  | some a =>
    match chase_left fuel h a with
    | none => none
    | some m =>
      match h.read m with
      | none => none
      | some nd => some (some nd.item)

/-- `find_maximum` from `src/lib.rs`: follow `right` from the given
node, then return that node's item. -/
def find_maximum (fuel : Nat) (h : Heap) (t : Option Nat) : Option (Option Int) :=
  match t with
  | none => some none
  | some a =>
    match chase_right fuel h a with
    | none => none
    | some m =>
      match h.read m with
      | none => none
      | some nd => some (some nd.item)

/-- `dispose_node` from `src/lib.rs`: post-order recursive teardown,
children first, then free the node itself. -/
def dispose_node : Nat → Heap → Nat → Option Heap
  | 0, _, _ => none
  | fuel + 1, h, a =>
    match h.read a with
    | none => none
    | some nd =>
      let rest : Option Heap :=
        match nd.left, nd.right with
        | none, none => some h
        | none, some right => dispose_node fuel h right
        | some left, none => dispose_node fuel h left
        | some left, some right =>
          match dispose_node fuel h left with
          | none => none
          | some h1 => dispose_node fuel h1 right
      match rest with
      | none => none
      | some h1 => h1.free a

/-- The Rust `BinarySearchTree<T>`: the optional root address together
with the ambient heap the tree's nodes live in. -/
structure BST where
  heap : Heap
  root : Option Nat

/-- `BinarySearchTree::new`. -/
def BST.new : BST :=
  ⟨⟨fun _ => none, 0⟩, none⟩

/-- Fuel handed to the recursive helpers by the public API: one more
than the number of allocations ever made, which bounds the depth of any
acyclic structure in the heap. -/
def BST.fuel (s : BST) : Nat :=
  s.heap.next + 1

/-- `BinarySearchTree::insert`: empty tree allocates the root directly;
otherwise `insert_node` is called on the temporary `&mut Some(root)`
with `parent = None`. -/
def BST.insert (s : BST) (value : Int) : Option BST :=
  match s.root with
  | some root =>
    (insert_node s.fuel s.heap (.tmp (some root)) value none).map (fun h1 => ⟨h1, s.root⟩)
  | none =>
    let (h1, addr) := s.heap.alloc ⟨value, none, none, none⟩
    some ⟨h1, some addr⟩

/-- `BinarySearchTree::get`: search and return the found node's item. -/
def BST.get (s : BST) (item : Int) : Option (Option Int) :=
  match s.root with
  | some root =>
    match search_node s.fuel s.heap (some root) item true with
    | none => none
    | some (_, node) =>
      match node with
      | none => some none
      | some a => (s.heap.read a).map (fun nd => some nd.item)
  | none => some none

/-- `BinarySearchTree::contains`: `get(..).is_some()`. -/
def BST.contains (s : BST) (item : Int) : Option Bool :=
  (s.get item).map Option.isSome

/-- `BinarySearchTree::min`. -/
def BST.min (s : BST) : Option (Option Int) :=
  match s.root with
  | some root => find_minimum s.fuel s.heap (some root)
  | none => some none

/-- `BinarySearchTree::max`. -/
def BST.max (s : BST) : Option (Option Int) :=
  match s.root with
  | some root => find_maximum s.fuel s.heap (some root)
  | none => some none

/-- `BinarySearchTree::delete`: search for the key; when found, run
`delete_node` on the found pointer and clear `root` exactly when the
match was at the root and `delete_node` reported the leaf case. -/
def BST.delete (s : BST) (item : Int) : Option BST :=
  match s.root with
  | some root =>
    match search_node s.fuel s.heap (some root) item true with
    | none => none
    | some (isRoot, node) =>
      match node with
      | some a =>
        match delete_node s.fuel s.heap (some a) with
        | none => none
        | some (h1, wasLeaf) =>
          some ⟨h1, if isRoot && wasLeaf then none else s.root⟩
      | none => some s
  | none => some s

/-- `Drop for BinarySearchTree`: dispose the root's subtree if any,
returning the final heap. -/
def BST.drop (s : BST) : Option Heap :=
  match s.root with
  | some root => dispose_node s.fuel s.heap root
  | none => some s.heap

/-- A public mutating call, for describing API call sequences. -/
inductive Op where
  | ins (v : Int)
  | del (v : Int)

/-- Apply one public call. -/
def BST.applyOp (s : BST) : Op → Option BST
  | .ins v => s.insert v
  | .del v => s.delete v

/-- Run a sequence of public calls against a fresh tree. -/
def run (ops : List Op) : Option BST :=
  List.foldlM BST.applyOp BST.new ops

/-- Run a pure insertion sequence against a fresh tree. -/
def runInserts (keys : List Int) : Option BST :=
  run (keys.map Op.ins)

/-!
## Abstraction layer

To prove the positive claims we relate the pointer structure to an
inductive tree of `(address, key)` pairs.  `ReprA h p l t` says: the
optional address `l`, read in heap `h` with expected parent `p`,
lays out exactly the tree `t`, with every node's `parent` field equal
to the address of the node whose child slot points at it.
-/

/-- Ghost view of the reachable pointer structure: a binary tree whose
nodes carry their heap address and key. -/
inductive ATree where
  | aleaf
  | anode (l : ATree) (a : Nat) (x : Int) (r : ATree)

/-- Addresses of a ghost tree, in preorder. -/
def ATree.addrs : ATree → List Nat
  | .aleaf => []
  | .anode l a _ r => a :: (l.addrs ++ r.addrs)

/-- Keys of a ghost tree, in symmetric (in-)order. -/
def ATree.keys : ATree → List Int
  | .aleaf => []
  | .anode l _ x r => l.keys ++ x :: r.keys

/-- Root address of a ghost tree. -/
def ATree.rootA : ATree → Option Nat
  | .aleaf => none
  | .anode _ a _ _ => some a

/-- Number of nodes of a ghost tree. -/
def ATree.size : ATree → Nat
  | .aleaf => 0
  | .anode l _ _ r => l.size + r.size + 1

/-- Ghost mirror of the insertion walk of `insert_node`: descend left
on strictly smaller, right otherwise, and graft a node carrying the
given fresh address at the first empty slot. -/
def ATree.insertG : ATree → Nat → Int → ATree
  | .aleaf, addr, item => .anode .aleaf addr item .aleaf
  | .anode l a x r, addr, item =>
    if item < x then .anode (l.insertG addr item) a x r
    else .anode l a x (r.insertG addr item)

/-- The BST ordering invariant of the spec: in every node, keys of the
left subtree are strictly smaller, keys of the right subtree are
greater or equal. -/
def ATree.ordered : ATree → Prop
  | .aleaf => True
  | .anode l _ x r =>
    (∀ k ∈ l.keys, k < x) ∧ (∀ k ∈ r.keys, x ≤ k) ∧ l.ordered ∧ r.ordered

/-- Minimum of a list of keys, `none` on the empty list. -/
def minKey? : List Int → Option Int
  | [] => none
  | x :: xs =>
    some (match minKey? xs with
          | none => x
          | some m => Min.min x m)

/-- Maximum of a list of keys, `none` on the empty list. -/
def maxKey? : List Int → Option Int
  | [] => none
  | x :: xs =>
    some (match maxKey? xs with
          | none => x
          | some m => Max.max x m)

/-- The layout relation between a heap and a ghost tree (see above). -/
inductive ReprA (h : Heap) : Option Nat → Option Nat → ATree → Prop
  | nil {p : Option Nat} : ReprA h p none .aleaf
  | node {p : Option Nat} {a : Nat} {x : Int} {tl tr : ATree} :
    h.mem a = some ⟨x, p, tl.rootA, tr.rootA⟩ →
    ReprA h (some a) tl.rootA tl →
    ReprA h (some a) tr.rootA tr →
    ReprA h p (some a) (.anode tl a x tr)

/-- A sane tree state: the root lays out the ghost tree `t`, the
addresses of `t` are pairwise distinct and all below the allocation
watermark. -/
def ReprOK (s : BST) (t : ATree) : Prop :=
  ReprA s.heap none s.root t ∧ t.addrs.Nodup ∧ ∀ a ∈ t.addrs, a < s.heap.next

/-!
## Basic lemmas about the heap and the ghost model
-/

theorem Heap.mem_write (h : Heap) (a : Nat) (nd : Node) (b : Nat) :
    (h.write a nd).mem b = if b = a then some nd else h.mem b := rfl

theorem Heap.next_write (h : Heap) (a : Nat) (nd : Node) :
    (h.write a nd).next = h.next := rfl

theorem Node.side_setSide (nd : Node) (sd : Side) (v : Option Nat) :
    (nd.setSide sd v).side sd = v := by
  cases sd <;> rfl

theorem Node.setSide_eq_self (nd : Node) (sd : Side) (v : Option Nat)
    (h : nd.side sd = v) : nd.setSide sd v = nd := by
  cases sd <;> cases nd <;> simp_all [Node.setSide, Node.side]

theorem ATree.length_addrs (t : ATree) : t.addrs.length = t.size := by
  induction t with
  | aleaf => rfl
  | anode l a x r ihl ihr =>
    simp only [ATree.addrs, ATree.size, List.length_cons, List.length_append, ihl, ihr]

theorem nodupBound_length_le (l : List Nat) (n : Nat) (hnd : l.Nodup)
    (hlt : ∀ a ∈ l, a < n) : l.length ≤ n := by
  classical
  calc l.length = l.toFinset.card := (List.toFinset_card_of_nodup hnd).symm
    _ ≤ (Finset.range n).card := by
        refine Finset.card_le_card ?_
        intro a ha
        rw [List.mem_toFinset] at ha
        rw [Finset.mem_range]
        exact hlt a ha
    _ = n := Finset.card_range n

theorem ATree.keys_insertG (t : ATree) (addr : Nat) (item : Int) :
    (t.insertG addr item).keys.Perm (item :: t.keys) := by
  induction t with
  | aleaf => simp [ATree.insertG, ATree.keys]
  | anode l a x r ihl ihr =>
    by_cases hx : item < x
    · simp only [ATree.insertG, if_pos hx, ATree.keys]
      exact ihl.append_right _
    · simp only [ATree.insertG, if_neg hx, ATree.keys]
      have s1 : (l.keys ++ x :: (r.insertG addr item).keys).Perm
          (l.keys ++ x :: item :: r.keys) :=
        List.Perm.append_left _ (List.Perm.cons _ ihr)
      have s2 : (l.keys ++ x :: item :: r.keys).Perm
          (l.keys ++ item :: x :: r.keys) :=
        List.Perm.append_left _ (List.Perm.swap _ _ _)
      have s3 : (l.keys ++ item :: x :: r.keys).Perm
          (item :: (l.keys ++ x :: r.keys)) := List.perm_middle
      exact (s1.trans s2).trans s3

theorem ATree.addrs_insertG (t : ATree) (addr : Nat) (item : Int) :
    (t.insertG addr item).addrs.Perm (addr :: t.addrs) := by
  induction t with
  | aleaf => simp [ATree.insertG, ATree.addrs]
  | anode l a x r ihl ihr =>
    by_cases hx : item < x
    · simp only [ATree.insertG, if_pos hx, ATree.addrs]
      have s1 : (a :: ((l.insertG addr item).addrs ++ r.addrs)).Perm
          (a :: ((addr :: l.addrs) ++ r.addrs)) :=
        List.Perm.cons _ (ihl.append_right _)
      have s2 : (a :: addr :: (l.addrs ++ r.addrs)).Perm
          (addr :: a :: (l.addrs ++ r.addrs)) := List.Perm.swap _ _ _
      exact s1.trans s2
    · simp only [ATree.insertG, if_neg hx, ATree.addrs]
      have s1 : (a :: (l.addrs ++ (r.insertG addr item).addrs)).Perm
          (a :: (l.addrs ++ addr :: r.addrs)) :=
        List.Perm.cons _ (List.Perm.append_left _ ihr)
      have s2 : (a :: (l.addrs ++ addr :: r.addrs)).Perm
          (a :: addr :: (l.addrs ++ r.addrs)) :=
        List.Perm.cons _ List.perm_middle
      have s3 : (a :: addr :: (l.addrs ++ r.addrs)).Perm
          (addr :: a :: (l.addrs ++ r.addrs)) := List.Perm.swap _ _ _
      exact (s1.trans s2).trans s3

theorem ATree.ordered_insertG (t : ATree) (addr : Nat) (item : Int)
    (h : t.ordered) : (t.insertG addr item).ordered := by
  induction t with
  | aleaf => simp [ATree.insertG, ATree.ordered, ATree.keys]
  | anode l a x r ihl ihr =>
    obtain ⟨hl, hr, hol, hor⟩ := h
    by_cases hx : item < x
    · simp only [ATree.insertG, if_pos hx, ATree.ordered]
      refine ⟨?_, hr, ihl hol, hor⟩
      intro k hk
      rcases List.mem_cons.mp ((l.keys_insertG addr item).mem_iff.mp hk) with h1 | h1
      · exact h1 ▸ hx
      · exact hl k h1
    · simp only [ATree.insertG, if_neg hx, ATree.ordered]
      refine ⟨hl, ?_, hol, ihr hor⟩
      intro k hk
      rcases List.mem_cons.mp ((r.keys_insertG addr item).mem_iff.mp hk) with h1 | h1
      · exact h1 ▸ le_of_not_lt hx
      · exact hr k h1

theorem ATree.ordered_sorted (t : ATree) (h : t.ordered) :
    t.keys.Sorted (· ≤ ·) := by
  induction t with
  | aleaf => exact List.sorted_nil
  | anode l a x r ihl ihr =>
    obtain ⟨hl, hr, hol, hor⟩ := h
    show List.Pairwise _ (l.keys ++ x :: r.keys)
    refine List.pairwise_append.mpr ⟨ihl hol, ?_, ?_⟩
    · exact List.pairwise_cons.mpr ⟨hr, ihr hor⟩
    · intro k hk b hb
      rcases List.mem_cons.mp hb with rfl | hb
      · exact (hl k hk).le
      · exact (hl k hk).le.trans (hr b hb)

theorem minKey?_cons (x : Int) (xs : List Int) :
    minKey? (x :: xs) = some ((minKey? xs).elim x (Min.min x)) := by
  cases h : minKey? xs <;> simp [minKey?, h]

theorem maxKey?_cons (x : Int) (xs : List Int) :
    maxKey? (x :: xs) = some ((maxKey? xs).elim x (Max.max x)) := by
  cases h : maxKey? xs <;> simp [maxKey?, h]

theorem minKey?_mem : ∀ (l : List Int) (m : Int), minKey? l = some m → m ∈ l := by
  intro l
  induction l with
  | nil => intro m hm; cases hm
  | cons x xs ih =>
    intro m hm
    rw [minKey?_cons] at hm
    cases hmx : minKey? xs with
    | none => rw [hmx] at hm; simp at hm; simp [hm]
    | some m' =>
      rw [hmx] at hm
      simp only [Option.elim, Option.some.injEq] at hm
      rcases min_cases x m' with ⟨he, _⟩ | ⟨he, _⟩
      · rw [he] at hm; simp [hm]
      · rw [he] at hm; exact List.mem_cons_of_mem x (hm ▸ ih m' hmx)

theorem minKey?_le : ∀ (l : List Int) (m : Int), minKey? l = some m →
    ∀ k ∈ l, m ≤ k := by
  intro l
  induction l with
  | nil => intro m hm; cases hm
  | cons x xs ih =>
    intro m hm k hk
    rw [minKey?_cons] at hm
    cases hmx : minKey? xs with
    | none =>
      rw [hmx] at hm
      simp only [Option.elim, Option.some.injEq] at hm
      cases xs with
      | nil =>
        rcases List.mem_cons.mp hk with h1 | h1
        · subst h1; exact le_of_eq hm.symm
        · cases h1
      | cons y ys => rw [minKey?_cons] at hmx; cases hmx
    | some m' =>
      rw [hmx] at hm
      simp only [Option.elim, Option.some.injEq] at hm
      rcases List.mem_cons.mp hk with h1 | h1
      · subst h1; exact hm ▸ min_le_left k m'
      · exact (hm ▸ min_le_right x m').trans (ih m' hmx k h1)

theorem minKey?_spec (l : List Int) (m : Int) (hmem : m ∈ l)
    (hle : ∀ k ∈ l, m ≤ k) : minKey? l = some m := by
  cases hml : minKey? l with
  | none =>
    exfalso
    cases l with
    | nil => cases hmem
    | cons x xs => rw [minKey?_cons] at hml; cases hml
  | some m' =>
    have h1 : m' ≤ m := minKey?_le l m' hml m hmem
    have h2 : m ≤ m' := hle m' (minKey?_mem l m' hml)
    rw [le_antisymm h1 h2]

theorem maxKey?_mem : ∀ (l : List Int) (m : Int), maxKey? l = some m → m ∈ l := by
  intro l
  induction l with
  | nil => intro m hm; cases hm
  | cons x xs ih =>
    intro m hm
    rw [maxKey?_cons] at hm
    cases hmx : maxKey? xs with
    | none => rw [hmx] at hm; simp at hm; simp [hm]
    | some m' =>
      rw [hmx] at hm
      simp only [Option.elim, Option.some.injEq] at hm
      rcases max_cases x m' with ⟨he, _⟩ | ⟨he, _⟩
      · rw [he] at hm; simp [hm]
      · rw [he] at hm; exact List.mem_cons_of_mem x (hm ▸ ih m' hmx)

theorem maxKey?_ge : ∀ (l : List Int) (m : Int), maxKey? l = some m →
    ∀ k ∈ l, k ≤ m := by
  intro l
  induction l with
  | nil => intro m hm; cases hm
  | cons x xs ih =>
    intro m hm k hk
    rw [maxKey?_cons] at hm
    cases hmx : maxKey? xs with
    | none =>
      rw [hmx] at hm
      simp only [Option.elim, Option.some.injEq] at hm
      cases xs with
      | nil =>
        rcases List.mem_cons.mp hk with h1 | h1
        · subst h1; exact le_of_eq hm
        · cases h1
      | cons y ys => rw [maxKey?_cons] at hmx; cases hmx
    | some m' =>
      rw [hmx] at hm
      simp only [Option.elim, Option.some.injEq] at hm
      rcases List.mem_cons.mp hk with h1 | h1
      · subst h1; exact hm ▸ le_max_left k m'
      · exact (ih m' hmx k h1).trans (hm ▸ le_max_right x m')

theorem maxKey?_spec (l : List Int) (m : Int) (hmem : m ∈ l)
    (hge : ∀ k ∈ l, k ≤ m) : maxKey? l = some m := by
  cases hml : maxKey? l with
  | none =>
    exfalso
    cases l with
    | nil => cases hmem
    | cons x xs => rw [maxKey?_cons] at hml; cases hml
  | some m' =>
    have h1 : m ≤ m' := maxKey?_ge l m' hml m hmem
    have h2 : m' ≤ m := hge m' (maxKey?_mem l m' hml)
    rw [le_antisymm h2 h1]

/-!
## Representation lemmas
-/

/-- Layout only depends on the heap cells at the tree's addresses. -/
theorem ReprA.mono {h h' : Heap} {p l : Option Nat} {t : ATree}
    (hr : ReprA h p l t) (hsame : ∀ c ∈ t.addrs, h'.mem c = h.mem c) :
    ReprA h' p l t := by
  induction hr with
  | nil => exact ReprA.nil
  | node hm hl hr ihl ihr =>
    refine ReprA.node ?_ ?_ ?_
    · rw [hsame _ (by simp [ATree.addrs])]; exact hm
    · exact ihl (fun c hc => hsame c (by simp [ATree.addrs, hc]))
    · exact ihr (fun c hc => hsame c (by simp [ATree.addrs, hc]))

/-- The layout pins the slot value to the ghost root address. -/
theorem ReprA.rootA_eq {h : Heap} {p l : Option Nat} {t : ATree}
    (hr : ReprA h p l t) : l = t.rootA := by
  cases hr with
  | nil => rfl
  | node hm hl hrr => rfl

/-- Every address of the ghost tree is allocated in the heap. -/
theorem ReprA.mem_of_addr {h : Heap} {p l : Option Nat} {t : ATree}
    (hr : ReprA h p l t) : ∀ c ∈ t.addrs, ∃ nd, h.mem c = some nd := by
  induction hr with
  | nil => intro c hc; cases hc
  | node hm hl hrr ihl ihr =>
    intro c hc
    simp only [ATree.addrs, List.mem_cons, List.mem_append] at hc
    rcases hc with rfl | hc | hc
    · exact ⟨_, hm⟩
    · exact ihl c hc
    · exact ihr c hc

/-- Main correspondence for `insert_node` on a child slot of a live
node: the walk terminates, allocates exactly the fresh address, writes
exactly one child field, and re-lays-out as the ghost insertion. -/
theorem insert_node_spec :
    ∀ (t : ATree) (fuel : Nat) (h : Heap) (a : Nat) (nd : Node) (sd : Side) (item : Int),
    t.size + 1 ≤ fuel →
    h.mem a = some nd →
    nd.side sd = t.rootA →
    ReprA h (some a) t.rootA t →
    (a :: t.addrs).Nodup →
    (∀ b ∈ a :: t.addrs, b < h.next) →
    ∃ h1,
      insert_node fuel h (.fieldOf sd a) item (some a) = some h1 ∧
      h1.next = h.next + 1 ∧
      (∀ b, b ≠ a → b ∉ t.addrs → b ≠ h.next → h1.mem b = h.mem b) ∧
      h1.mem a = some (nd.setSide sd (t.insertG h.next item).rootA) ∧
      ReprA h1 (some a) (t.insertG h.next item).rootA (t.insertG h.next item) ∧
      (∃ p, h1.mem h.next = some ⟨item, p, none, none⟩) := by
  intro t
  induction t with
  | aleaf =>
    intro fuel h a nd sd item hfuel ha hside hrep hnd hlt
    obtain ⟨fuel, rfl⟩ : ∃ f, fuel = f + 1 := by
      cases fuel with
      | zero => omega
      | succ f => exact ⟨f, rfl⟩
    have haneq : a ≠ h.next := Nat.ne_of_lt (hlt a (by simp))
    refine ⟨((⟨fun b => if b = h.next then some ⟨item, some a, none, none⟩ else h.mem b,
        h.next + 1⟩ : Heap).write a (nd.setSide sd (some h.next))),
      ?_, rfl, ?_, ?_, ?_, some a, ?_⟩
    · simp only [insert_node, Slot.read, Heap.read, ha, Option.map_some']
      rw [hside]
      simp only [ATree.rootA, Heap.alloc, Slot.write, Heap.read]
      rw [if_neg haneq, ha]
    · intro b hba hbt hbn
      simp only [Heap.write]
      rw [if_neg hba, if_neg hbn]
    · simp only [Heap.write, ATree.insertG, ATree.rootA]
      simp
    · simp only [ATree.insertG, ATree.rootA]
      refine ReprA.node ?_ ReprA.nil ReprA.nil
      show (if h.next = a then _ else if h.next = h.next then _ else _) = _
      rw [if_neg (Ne.symm haneq), if_pos rfl]
      rfl
    · show (if h.next = a then _ else if h.next = h.next then _ else _) = _
      rw [if_neg (Ne.symm haneq), if_pos rfl]
  | anode tl b x tr ihl ihr =>
    intro fuel h a nd sd item hfuel ha hside hrep hnd hlt
    obtain ⟨fuel, rfl⟩ : ∃ f, fuel = f + 1 := by
      cases fuel with
      | zero => omega
      | succ f => exact ⟨f, rfl⟩
    cases hrep with
    | node hb hrl hrr =>
    have hfl : tl.size + 1 ≤ fuel := by
      simp only [ATree.size] at hfuel; omega
    have hfr : tr.size + 1 ≤ fuel := by
      simp only [ATree.size] at hfuel; omega
    have hnd0 : (a :: (b :: (tl.addrs ++ tr.addrs))).Nodup := by
      simpa only [ATree.addrs] using hnd
    obtain ⟨hanm, hnd1⟩ := List.nodup_cons.mp hnd0
    obtain ⟨hbnm, hnd2⟩ := List.nodup_cons.mp hnd1
    obtain ⟨hndl, hndr, hdisj⟩ := List.nodup_append.mp hnd2
    have hab : a ≠ b := fun he => hanm (he ▸ List.mem_cons_self b _)
    have hanotl : a ∉ tl.addrs := fun hc =>
      hanm (List.mem_cons_of_mem b (List.mem_append_left _ hc))
    have hanotr : a ∉ tr.addrs := fun hc =>
      hanm (List.mem_cons_of_mem b (List.mem_append_right _ hc))
    have hbtl' : b ∉ tl.addrs := fun hc => hbnm (List.mem_append_left _ hc)
    have hbtr : b ∉ tr.addrs := fun hc => hbnm (List.mem_append_right _ hc)
    have hltb : ∀ c ∈ b :: tl.addrs, c < h.next := by
      intro c hc
      rcases List.mem_cons.mp hc with rfl | hc
      · exact hlt c (by simp [ATree.addrs])
      · exact hlt c (by simp [ATree.addrs, hc])
    have hltbr : ∀ c ∈ b :: tr.addrs, c < h.next := by
      intro c hc
      rcases List.mem_cons.mp hc with rfl | hc
      · exact hlt c (by simp [ATree.addrs])
      · exact hlt c (by simp [ATree.addrs, hc])
    have hstep : Slot.read h (.fieldOf sd a) = some (some b) := by
      simp only [Slot.read, Heap.read, ha, Option.map_some']
      rw [hside]; rfl
    by_cases hx : item < x
    · obtain ⟨h1, hrun, hnext, hframe, hmemb, hrepl', hnew⟩ :=
        ihl fuel h b ⟨x, some a, tl.rootA, tr.rootA⟩ .l item hfl hb rfl hrl
          (List.nodup_cons.mpr ⟨hbtl', hndl⟩) hltb
      have hrun' : insert_node (fuel + 1) h (.fieldOf sd a) item (some a) = some h1 := by
        simp only [insert_node, hstep, Heap.read, hb]
        rw [if_pos hx]
        exact hrun
      have hmema : h1.mem a = h.mem a :=
        hframe a hab hanotl (Nat.ne_of_lt (hlt a (by simp)))
      have hins : (ATree.insertG (.anode tl b x tr) h.next item) =
          .anode (tl.insertG h.next item) b x tr := by
        simp only [ATree.insertG, if_pos hx]
      refine ⟨h1, hrun', hnext, ?_, ?_, ?_, hnew⟩
      · intro c hca hct hcn
        refine hframe c ?_ ?_ hcn
        · intro hcb; subst hcb
          exact hct (by simp [ATree.addrs])
        · intro hc; exact hct (by simp [ATree.addrs, hc])
      · rw [hmema, ha, hins]
        simp only [ATree.rootA]
        rw [Node.setSide_eq_self nd sd (some b) (by rw [hside]; rfl)]
      · rw [hins]
        simp only [ATree.rootA]
        refine ReprA.node ?_ hrepl' ?_
        · rw [hmemb]; rfl
        · refine hrr.mono ?_
          intro c hc
          refine hframe c ?_ ?_ ?_
          · intro hcb; subst hcb; exact hbtr hc
          · intro hc'; exact hdisj hc' hc
          · exact Nat.ne_of_lt (hltbr c (by simp [hc]))
    · obtain ⟨h1, hrun, hnext, hframe, hmemb, hrepr', hnew⟩ :=
        ihr fuel h b ⟨x, some a, tl.rootA, tr.rootA⟩ .r item hfr hb rfl hrr
          (List.nodup_cons.mpr ⟨hbtr, hndr⟩) hltbr
      have hrun' : insert_node (fuel + 1) h (.fieldOf sd a) item (some a) = some h1 := by
        simp only [insert_node, hstep, Heap.read, hb]
        rw [if_neg hx]
        exact hrun
      have hmema : h1.mem a = h.mem a :=
        hframe a hab hanotr (Nat.ne_of_lt (hlt a (by simp)))
      have hins : (ATree.insertG (.anode tl b x tr) h.next item) =
          .anode tl b x (tr.insertG h.next item) := by
        simp only [ATree.insertG, if_neg hx]
      refine ⟨h1, hrun', hnext, ?_, ?_, ?_, hnew⟩
      · intro c hca hct hcn
        refine hframe c ?_ ?_ hcn
        · intro hcb; subst hcb
          exact hct (by simp [ATree.addrs])
        · intro hc; exact hct (by simp [ATree.addrs, hc])
      · rw [hmema, ha, hins]
        simp only [ATree.rootA]
        rw [Node.setSide_eq_self nd sd (some b) (by rw [hside]; rfl)]
      · rw [hins]
        simp only [ATree.rootA]
        refine ReprA.node ?_ ?_ hrepr'
        · rw [hmemb]; rfl
        · refine hrl.mono ?_
          intro c hc
          refine hframe c ?_ ?_ ?_
          · intro hcb; subst hcb; exact hbtl' hc
          · intro hc'; exact hdisj hc hc'
          · exact Nat.ne_of_lt (hltb c (by simp [hc]))

/-- Correspondence for the public `BinarySearchTree::insert`: it always
succeeds on a sane state, allocates exactly one fresh leaf cell holding
the key, and the new state lays out as the ghost insertion (so the new
leaf sits in the first empty slot of the comparison walk and its
`parent` field is the address of the node whose slot it fills). -/
theorem insert_spec (s : BST) (t : ATree) (hok : ReprOK s t) (item : Int) :
    ∃ s1, BST.insert s item = some s1 ∧
      s1.root = (t.insertG s.heap.next item).rootA ∧
      ReprOK s1 (t.insertG s.heap.next item) ∧
      s1.heap.next = s.heap.next + 1 ∧
      (∃ p, s1.heap.mem s.heap.next = some ⟨item, p, none, none⟩) ∧
      (s.root = none → s1.heap.mem s.heap.next = some ⟨item, none, none, none⟩) := by
  obtain ⟨hrep, hnd, hlt⟩ := hok
  cases hroot : s.root with
  | none =>
    rw [hroot] at hrep
    cases hrep
    refine ⟨⟨(s.heap.alloc ⟨item, none, none, none⟩).1, some s.heap.next⟩, ?_, ?_, ⟨?_, ?_, ?_⟩, ?_, ?_, ?_⟩
    · simp [BST.insert, hroot, Heap.alloc]
    · simp [ATree.insertG, ATree.rootA]
    · simp only [ATree.insertG]
      refine ReprA.node ?_ ReprA.nil ReprA.nil
      simp [Heap.alloc, ATree.rootA]
    · simp [ATree.insertG, ATree.addrs]
    · intro c hc
      simp only [ATree.insertG, ATree.addrs, List.mem_cons] at hc
      rcases hc with rfl | hc
      · simp [Heap.alloc]
      · simp [ATree.addrs] at hc
    · rfl
    · exact ⟨none, by simp [Heap.alloc]⟩
    · intro _; simp [Heap.alloc]
  | some r =>
    rw [hroot] at hrep
    cases hrep with
    | node hb hrl hrr =>
    rename_i x tl tr
    have hlen : (ATree.anode tl r x tr).addrs.length ≤ s.heap.next :=
      nodupBound_length_le _ _ hnd hlt
    have hlen' : tl.addrs.length + tr.addrs.length + 1 ≤ s.heap.next := by
      simpa only [ATree.addrs, List.length_cons, List.length_append, Nat.add_comm] using hlen
    have hnd0 : (r :: (tl.addrs ++ tr.addrs)).Nodup := by
      simpa only [ATree.addrs] using hnd
    obtain ⟨hrnm, hnd2⟩ := List.nodup_cons.mp hnd0
    obtain ⟨hndl, hndr, hdisj⟩ := List.nodup_append.mp hnd2
    have hrtl : r ∉ tl.addrs := fun hc => hrnm (List.mem_append_left _ hc)
    have hrtr : r ∉ tr.addrs := fun hc => hrnm (List.mem_append_right _ hc)
    have hltr : r < s.heap.next := hlt r (by simp [ATree.addrs])
    have hlttl : ∀ c ∈ r :: tl.addrs, c < s.heap.next := by
      intro c hc
      rcases List.mem_cons.mp hc with rfl | hc
      · exact hltr
      · exact hlt c (by simp [ATree.addrs, hc])
    have hlttr : ∀ c ∈ r :: tr.addrs, c < s.heap.next := by
      intro c hc
      rcases List.mem_cons.mp hc with rfl | hc
      · exact hltr
      · exact hlt c (by simp [ATree.addrs, hc])
    have hlenl : tl.size + 1 ≤ s.heap.next := by
      rw [← ATree.length_addrs]; omega
    have hlenr : tr.size + 1 ≤ s.heap.next := by
      rw [← ATree.length_addrs]; omega
    by_cases hx : item < x
    · obtain ⟨h1, hrun, hnext, hframe, hmemb, hrepl', hnew⟩ :=
        insert_node_spec tl s.heap.next s.heap r ⟨x, none, tl.rootA, tr.rootA⟩ .l item
          hlenl hb rfl hrl (List.nodup_cons.mpr ⟨hrtl, hndl⟩) hlttl
      have hins : (ATree.insertG (.anode tl r x tr) s.heap.next item) =
          .anode (tl.insertG s.heap.next item) r x (tr) := by
        simp only [ATree.insertG, if_pos hx]
      have hrun' : BST.insert s item = some ⟨h1, some r⟩ := by
        simp only [BST.insert, hroot, BST.fuel, insert_node, Slot.read, Heap.read, hb]
        rw [if_pos hx, hrun]
        rfl
      refine ⟨⟨h1, some r⟩, hrun', ?_, ⟨?_, ?_, ?_⟩, hnext, hnew, ?_⟩
      · rw [hins]; rfl
      · rw [hins]
        refine ReprA.node ?_ hrepl' ?_
        · rw [hmemb]; rfl
        · refine hrr.mono ?_
          intro c hc
          refine hframe c ?_ ?_ ?_
          · intro hcb; subst hcb; exact hrtr hc
          · intro hc'; exact hdisj hc' hc
          · exact Nat.ne_of_lt (hlt c (by simp [ATree.addrs, hc]))
      · refine ((ATree.addrs_insertG _ _ _).nodup_iff).mpr ?_
        refine List.nodup_cons.mpr ⟨?_, hnd⟩
        intro hc
        exact absurd (hlt _ hc) (lt_irrefl _)
      · intro c hc
        rw [hnext]
        rcases List.mem_cons.mp ((ATree.addrs_insertG _ _ _).mem_iff.mp hc) with rfl | hc
        · omega
        · exact Nat.lt_succ_of_lt (hlt c hc)
      · intro hc; cases hc
    · obtain ⟨h1, hrun, hnext, hframe, hmemb, hrepr', hnew⟩ :=
        insert_node_spec tr s.heap.next s.heap r ⟨x, none, tl.rootA, tr.rootA⟩ .r item
          hlenr hb rfl hrr (List.nodup_cons.mpr ⟨hrtr, hndr⟩) hlttr
      have hins : (ATree.insertG (.anode tl r x tr) s.heap.next item) =
          .anode tl r x (tr.insertG s.heap.next item) := by
        simp only [ATree.insertG, if_neg hx]
      have hrun' : BST.insert s item = some ⟨h1, some r⟩ := by
        simp only [BST.insert, hroot, BST.fuel, insert_node, Slot.read, Heap.read, hb]
        rw [if_neg hx, hrun]
        rfl
      refine ⟨⟨h1, some r⟩, hrun', ?_, ⟨?_, ?_, ?_⟩, hnext, hnew, ?_⟩
      · rw [hins]; rfl
      · rw [hins]
        refine ReprA.node ?_ ?_ hrepr'
        · rw [hmemb]; rfl
        · refine hrl.mono ?_
          intro c hc
          refine hframe c ?_ ?_ ?_
          · intro hcb; subst hcb; exact hrtl hc
          · intro hc'; exact hdisj hc hc'
          · exact Nat.ne_of_lt (hlt c (by simp [ATree.addrs, hc]))
      · refine ((ATree.addrs_insertG _ _ _).nodup_iff).mpr ?_
        refine List.nodup_cons.mpr ⟨?_, hnd⟩
        intro hc
        exact absurd (hlt _ hc) (lt_irrefl _)
      · intro c hc
        rw [hnext]
        rcases List.mem_cons.mp ((ATree.addrs_insertG _ _ _).mem_iff.mp hc) with rfl | hc
        · omega
        · exact Nat.lt_succ_of_lt (hlt c hc)
      · intro hc; cases hc

/-- Running a sequence of inserts preserves the layout relation and the
ordering invariant, and the multiset of stored keys grows by exactly
the inserted keys. -/
theorem foldl_insert_spec :
    ∀ (keys : List Int) (s : BST) (t : ATree), ReprOK s t → t.ordered →
    ∃ s1 t1, List.foldlM BST.applyOp s (keys.map Op.ins) = some s1 ∧
      ReprOK s1 t1 ∧ t1.ordered ∧ t1.keys.Perm (t.keys ++ keys) := by
  intro keys
  induction keys with
  | nil =>
    intro s t hok hord
    exact ⟨s, t, rfl, hok, hord, by simp⟩
  | cons k ks ih =>
    intro s t hok hord
    obtain ⟨s1, hrun, hroot1, hok1, hnext, hnew, hroote⟩ := insert_spec s t hok k
    obtain ⟨s2, t2, hrun2, hok2, hord2, hperm⟩ :=
      ih s1 (t.insertG s.heap.next k) hok1 (t.ordered_insertG _ _ hord)
    refine ⟨s2, t2, ?_, hok2, hord2, ?_⟩
    · rw [List.map_cons, List.foldlM_cons]
      show (BST.insert s k).bind _ = _
      rw [hrun]
      exact hrun2
    · have s1p : ((t.insertG s.heap.next k).keys ++ ks).Perm ((k :: t.keys) ++ ks) :=
        (t.keys_insertG _ _).append_right _
      exact (hperm.trans (s1p.trans List.perm_middle.symm))

/-- `chase_left` lands on the node holding the least key of the laid
out subtree (under the ordering invariant). -/
theorem chase_left_spec :
    ∀ (t : ATree) (fuel : Nat) (h : Heap) (p : Option Nat) (a : Nat),
    ReprA h p (some a) t → t.size + 1 ≤ fuel → t.ordered →
    ∃ m mnd, chase_left fuel h a = some m ∧ h.mem m = some mnd ∧
      mnd.item ∈ t.keys ∧ ∀ k ∈ t.keys, mnd.item ≤ k := by
  intro t
  induction t with
  | aleaf =>
    intro fuel h p a hrep
    cases hrep
  | anode tl b x tr ihl ihr =>
    intro fuel h p a hrep hfuel hord
    cases hrep with
    | node hb hrl hrr =>
    obtain ⟨hkl, hkr, hordl, hordr⟩ := hord
    obtain ⟨fuel, rfl⟩ : ∃ f, fuel = f + 1 := by
      cases fuel with
      | zero => omega
      | succ f => exact ⟨f, rfl⟩
    cases htl : tl with
    | aleaf =>
      subst htl
      refine ⟨b, ⟨x, p, ATree.rootA .aleaf, tr.rootA⟩, ?_, hb, ?_, ?_⟩
      · simp only [chase_left, Heap.read, hb, ATree.rootA]
      · exact List.mem_append_right _ (List.mem_cons_self x _)
      · intro k hk
        rcases List.mem_append.mp hk with hk | hk
        · cases hk
        · rcases List.mem_cons.mp hk with rfl | hk
          · exact le_refl k
          · exact hkr k hk
    | anode tl1 c x1 tr1 =>
      subst htl
      have hfl : (ATree.anode tl1 c x1 tr1).size + 1 ≤ fuel := by
        simp only [ATree.size] at hfuel ⊢; omega
      obtain ⟨m, mnd, hm, hmem, hin, hbound⟩ :=
        ihl fuel h (some b) c hrl hfl hordl
      refine ⟨m, mnd, ?_, hmem, ?_, ?_⟩
      · simp only [chase_left, Heap.read, hb, ATree.rootA]
        exact hm
      · exact List.mem_append_left _ hin
      · intro k hk
        rcases List.mem_append.mp hk with hk | hk
        · exact hbound k hk
        · rcases List.mem_cons.mp hk with rfl | hk
          · exact (hkl mnd.item hin).le
          · exact (hkl mnd.item hin).le.trans (hkr k hk)

/-- `chase_right` lands on the node holding the greatest key of the
laid out subtree (under the ordering invariant). -/
theorem chase_right_spec :
    ∀ (t : ATree) (fuel : Nat) (h : Heap) (p : Option Nat) (a : Nat),
    ReprA h p (some a) t → t.size + 1 ≤ fuel → t.ordered →
    ∃ m mnd, chase_right fuel h a = some m ∧ h.mem m = some mnd ∧
      mnd.item ∈ t.keys ∧ ∀ k ∈ t.keys, k ≤ mnd.item := by
  intro t
  induction t with
  | aleaf =>
    intro fuel h p a hrep
    cases hrep
  | anode tl b x tr ihl ihr =>
    intro fuel h p a hrep hfuel hord
    cases hrep with
    | node hb hrl hrr =>
    obtain ⟨hkl, hkr, hordl, hordr⟩ := hord
    obtain ⟨fuel, rfl⟩ : ∃ f, fuel = f + 1 := by
      cases fuel with
      | zero => omega
      | succ f => exact ⟨f, rfl⟩
    cases htr : tr with
    | aleaf =>
      subst htr
      refine ⟨b, ⟨x, p, tl.rootA, ATree.rootA .aleaf⟩, ?_, hb, ?_, ?_⟩
      · simp only [chase_right, Heap.read, hb, ATree.rootA]
      · exact List.mem_append_right _ (List.mem_cons_self x _)
      · intro k hk
        rcases List.mem_append.mp hk with hk | hk
        · exact (hkl k hk).le
        · rcases List.mem_cons.mp hk with rfl | hk
          · exact le_refl k
          · cases hk
    | anode tl1 c x1 tr1 =>
      subst htr
      have hfr : (ATree.anode tl1 c x1 tr1).size + 1 ≤ fuel := by
        simp only [ATree.size] at hfuel ⊢; omega
      obtain ⟨m, mnd, hm, hmem, hin, hbound⟩ :=
        ihr fuel h (some b) c hrr hfr hordr
      refine ⟨m, mnd, ?_, hmem, ?_, ?_⟩
      · simp only [chase_right, Heap.read, hb, ATree.rootA]
        exact hm
      · exact List.mem_append_right _ (List.mem_cons_of_mem _ hin)
      · intro k hk
        rcases List.mem_append.mp hk with hk | hk
        · exact ((hkl k hk).le).trans (hkr mnd.item hin)
        · rcases List.mem_cons.mp hk with rfl | hk
          · exact hkr mnd.item hin
          · exact hbound k hk

/-- On a sane ordered state, `min` returns exactly the least stored
key (`none` when the tree is empty). -/
theorem min_spec (s : BST) (t : ATree) (hok : ReprOK s t) (hord : t.ordered) :
    BST.min s = some (minKey? t.keys) := by
  obtain ⟨hrep, hnd, hlt⟩ := hok
  cases hroot : s.root with
  | none =>
    rw [hroot] at hrep
    cases hrep
    simp [BST.min, hroot, ATree.keys, minKey?]
  | some r =>
    rw [hroot] at hrep
    have hfuel : t.size + 1 ≤ s.fuel := by
      have hl := nodupBound_length_le _ _ hnd hlt
      rw [ATree.length_addrs] at hl
      show t.size + 1 ≤ s.heap.next + 1
      omega
    obtain ⟨m, mnd, hm, hmem, hin, hbound⟩ :=
      chase_left_spec t s.fuel s.heap none r hrep hfuel hord
    have hms : BST.min s = some (some mnd.item) := by
      simp only [BST.min, hroot, find_minimum, hm, Heap.read, hmem]
    rw [hms, minKey?_spec t.keys mnd.item hin hbound]

/-- On a sane ordered state, `max` returns exactly the greatest stored
key (`none` when the tree is empty). -/
theorem max_spec (s : BST) (t : ATree) (hok : ReprOK s t) (hord : t.ordered) :
    BST.max s = some (maxKey? t.keys) := by
  obtain ⟨hrep, hnd, hlt⟩ := hok
  cases hroot : s.root with
  | none =>
    rw [hroot] at hrep
    cases hrep
    simp [BST.max, hroot, ATree.keys, maxKey?]
  | some r =>
    rw [hroot] at hrep
    have hfuel : t.size + 1 ≤ s.fuel := by
      have hl := nodupBound_length_le _ _ hnd hlt
      rw [ATree.length_addrs] at hl
      show t.size + 1 ≤ s.heap.next + 1
      omega
    obtain ⟨m, mnd, hm, hmem, hin, hbound⟩ :=
      chase_right_spec t s.fuel s.heap none r hrep hfuel hord
    have hms : BST.max s = some (some mnd.item) := by
      simp only [BST.max, hroot, find_maximum, hm, Heap.read, hmem]
    rw [hms, maxKey?_spec t.keys mnd.item hin hbound]

/-- `ReprOK` holds for the empty tree. -/
theorem reprOK_new : ReprOK BST.new .aleaf :=
  ⟨ReprA.nil, List.nodup_nil, fun a ha => absurd ha (List.not_mem_nil a)⟩

/-- Once the descent has left the first node, `search_node` can only
report `false` in its first component. -/
theorem search_node_false :
    ∀ (fuel : Nat) (h : Heap) (l : Option Nat) (item : Int) (b : Bool) (n : Option Nat),
    search_node fuel h l item false = some (b, n) → b = false := by
  intro fuel
  induction fuel with
  | zero =>
    intro h l item b n hs
    cases hs
  | succ fuel ih =>
    intro h l item b n hs
    cases l with
    | none =>
      simp only [search_node, Option.some.injEq, Prod.mk.injEq] at hs
      exact hs.1.symm
    | some leaf =>
      cases hr : h.read leaf with
      | none => simp [search_node, hr] at hs
      | some nd =>
        cases hc : compare item nd.item with
        | eq =>
          simp only [search_node, hr, hc, Option.some.injEq, Prod.mk.injEq] at hs
          exact hs.1.symm
        | lt =>
          simp only [search_node, hr, hc] at hs
          exact ih h nd.left item b n hs
        | gt =>
          simp only [search_node, hr, hc] at hs
          exact ih h nd.right item b n hs

/-- If the top-level search reports a root match (`true`), the node it
found is the root itself. -/
theorem search_node_root (fuel : Nat) (h : Heap) (r : Nat) (item : Int) (n : Option Nat)
    (hs : search_node fuel h (some r) item true = some (true, n)) : n = some r := by
  cases fuel with
  | zero => cases hs
  | succ fuel =>
    cases hr : h.read r with
    | none => simp [search_node, hr] at hs
    | some nd =>
      cases hc : compare item nd.item with
      | eq =>
        simp only [search_node, hr, hc, Option.some.injEq, Prod.mk.injEq] at hs
        exact hs.2.symm
      | lt =>
        simp only [search_node, hr, hc] at hs
        exact absurd (search_node_false fuel h nd.left item true n hs) (by simp)
      | gt =>
        simp only [search_node, hr, hc] at hs
        exact absurd (search_node_false fuel h nd.right item true n hs) (by simp)

/-- `delete_node` reports `true` only from its leaf case: the node it
was handed has no children. -/
theorem delete_node_leaf (fuel : Nat) (h : Heap) (a : Nat) (h1 : Heap)
    (hd : delete_node fuel h (some a) = some (h1, true)) :
    ∃ nd, h.mem a = some nd ∧ nd.left = none ∧ nd.right = none := by
  cases hr : h.read a with
  | none => simp [delete_node, hr] at hd
  | some nd =>
    refine ⟨nd, hr, ?_⟩
    cases hl : nd.left with
    | none =>
      cases hrt : nd.right with
      | none => exact ⟨rfl, rfl⟩
      | some right =>
        exfalso
        cases hc : h.read right with
        | none => simp [delete_node, hr, hl, hrt, hc] at hd
        | some child =>
          cases hf : h.free right with
          | none => simp [delete_node, hr, hl, hrt, hc, hf] at hd
          | some h2 => simp [delete_node, hr, hl, hrt, hc, hf] at hd
    | some left =>
      exfalso
      cases hrt : nd.right with
      | none =>
        cases hc : h.read left with
        | none => simp [delete_node, hr, hl, hrt, hc] at hd
        | some child =>
          cases hf : h.free left with
          | none => simp [delete_node, hr, hl, hrt, hc, hf] at hd
          | some h2 => simp [delete_node, hr, hl, hrt, hc, hf] at hd
      | some right =>
        cases hcl : chase_left fuel h right with
        | none => simp [delete_node, hr, hl, hrt, hcl] at hd
        | some nb =>
          cases hc : h.read nb with
          | none => simp [delete_node, hr, hl, hrt, hcl, hc] at hd
          | some nbNode =>
            cases hf : h.free nb with
            | none => simp [delete_node, hr, hl, hrt, hcl, hc, hf] at hd
            | some h2 =>
              cases hp : nbNode.parent with
              | none =>
                cases hc3 : h2.read a with
                | none => simp [delete_node, hr, hl, hrt, hcl, hc, hf, hp, hc3] at hd
                | some nd2 => simp [delete_node, hr, hl, hrt, hcl, hc, hf, hp, hc3] at hd
              | some p =>
                cases hc2 : h2.read p with
                | none => simp [delete_node, hr, hl, hrt, hcl, hc, hf, hp, hc2] at hd
                | some pnd =>
                  cases hc3 : (h2.write p { pnd with left := none }).read a with
                  | none => simp [delete_node, hr, hl, hrt, hcl, hc, hf, hp, hc2, hc3] at hd
                  | some nd2 => simp [delete_node, hr, hl, hrt, hcl, hc, hf, hp, hc2, hc3] at hd

/-- `minKey?` only depends on the multiset of keys. -/
theorem minKey?_congr_perm {l l' : List Int} (h : l.Perm l') :
    minKey? l = minKey? l' := by
  cases hml : minKey? l with
  | none =>
    cases l with
    | nil =>
      have he : l' = [] := List.perm_nil.mp h.symm
      rw [he]; rfl
    | cons x xs => rw [minKey?_cons] at hml; cases hml
  | some m =>
    exact (minKey?_spec l' m (h.mem_iff.mp (minKey?_mem l m hml))
      (fun k hk => minKey?_le l m hml k (h.mem_iff.mpr hk))).symm

/-- `maxKey?` only depends on the multiset of keys. -/
theorem maxKey?_congr_perm {l l' : List Int} (h : l.Perm l') :
    maxKey? l = maxKey? l' := by
  cases hml : maxKey? l with
  | none =>
    cases l with
    | nil =>
      have he : l' = [] := List.perm_nil.mp h.symm
      rw [he]; rfl
    | cons x xs => rw [maxKey?_cons] at hml; cases hml
  | some m =>
    exact (maxKey?_spec l' m (h.mem_iff.mp (maxKey?_mem l m hml))
      (fun k hk => maxKey?_ge l m hml k (h.mem_iff.mpr hk))).symm

/-!
## The claims
-/

/-- C1: the claim says that deleting a key held by a leaf frees the
node AND clears its parent's child slot, leaving no reference to a
freed node.  The code violates this: after `insert 1; insert 2;
delete 2`, the node at address 1 (key 2) has been freed, yet the root
node's `right` field still holds address 1 — a dangling owning pointer
— and the tree is left in this state (`root` still address 0). -/
theorem C1_leaf_delete_dangling :
    (run [.ins 1, .ins 2, .del 2]).map
      (fun s => (s.root, s.heap.mem 1, (s.heap.mem 0).map Node.right)) =
    some (some 0, none, some (some 1)) := rfl

/-- C2: the claim says N inserts plus arbitrary deletes plus drop give
exactly N allocations and N deallocations with nothing freed twice.
The code violates this: after `insert 1; insert 2; delete 2` (two
allocations, addresses 0 and 1; address 1 already freed) the teardown
walks the root's dangling `right` pointer into the freed cell, i.e. it
dereferences and frees the freed node a second time — the embedding
reports the invalid access as `none`. -/
theorem C2_teardown_double_free :
    (run [.ins 1, .ins 2, .del 2]).map
      (fun s => (s.heap.next, s.heap.mem 1, BST.drop s)) =
    some (2, none, none) := rfl

/-- C3: the claim says delete removes exactly one node with the given
key and no other key's membership changes (two-children case: only the
successor is detached).  The code violates this: after
`insert 2; insert 1; insert 3; delete 2` the key 1 — never deleted —
is no longer in the tree (`contains 1` is `false`): the two-children
case overwrote the target's `left` with the successor's `left`
(`none`), unlinking the whole left subtree; its node (address 1) is
still allocated but unreachable, i.e. leaked. -/
theorem C3_delete_two_children_loses_keys :
    (run [.ins 2, .ins 1, .ins 3, .del 2]).map
      (fun s => (BST.contains s 1, BST.contains s 2, BST.contains s 3, s.heap.mem 1)) =
    some (some false, some false, some true, some ⟨1, some 0, none, none⟩) := rfl

/-- C4: the claim says parent consistency holds after every public
operation, in particular that children transplanted by the one-child
splice get their parent links re-pointed at the overwritten node.  The
code violates this: after `insert 1; insert 2; insert 3; delete 1` the
root (address 0) has `right = some 2`, but the node at address 2 still
has `parent = some 1` — the address of the freed spliced-out child —
instead of `some 0`. -/
theorem C4_splice_breaks_parent_links :
    (run [.ins 1, .ins 2, .ins 3, .del 1]).map
      (fun s => (s.root, (s.heap.mem 0).map Node.right, s.heap.mem 2, s.heap.mem 1)) =
    some (some 0, some (some 2), some ⟨3, some 1, none, none⟩, none) := rfl

/-- C5: for every sequence of inserts from the empty tree, the BST
ordering invariant holds — the heap lays out as a ghost tree in which
every node's left-subtree keys are strictly below and right-subtree
keys at or above its own key — and equivalently the in-order key
sequence is non-decreasing (and is a permutation of the inserted
keys). -/
theorem C5_insert_ordering :
    ∀ keys : List Int, ∃ s t, runInserts keys = some s ∧ ReprOK s t ∧
      t.ordered ∧ t.keys.Sorted (· ≤ ·) ∧ t.keys.Perm keys := by
  intro keys
  obtain ⟨s1, t1, hrun, hok, hord, hperm⟩ :=
    foldl_insert_spec keys BST.new .aleaf reprOK_new trivial
  exact ⟨s1, t1, hrun, hok, hord, t1.ordered_sorted hord, by simpa using hperm⟩

/-- C6: the claim says every key inserted and not deleted is still
found by `contains`/`get`.  The code violates this: after
`insert 10; insert 5; insert 20; delete 10` the key 5 was inserted and
never deleted, yet `get 5` returns absent and `contains 5` returns
`false` (the two-children delete cut off the left subtree). -/
theorem C6_round_trip_broken :
    (run [.ins 10, .ins 5, .ins 20, .del 10]).bind (fun s => BST.get s 5) = some none ∧
    (run [.ins 10, .ins 5, .ins 20, .del 10]).bind (fun s => BST.contains s 5) = some false :=
  ⟨rfl, rfl⟩

/-- C7: on any sane state, insert always succeeds and adds exactly one
fresh node — a leaf holding the key — at the slot the comparison walk
reaches (left on strictly-less, right otherwise, mirrored by
`ATree.insertG`), with its `parent` field set to the node whose slot it
fills (enforced by `ReprOK` of the ghost insertion); on the empty tree
it becomes the root with no parent. -/
theorem C7_insert_fresh_leaf (s : BST) (t : ATree) (hok : ReprOK s t) (item : Int) :
    ∃ s1, BST.insert s item = some s1 ∧
      ReprOK s1 (t.insertG s.heap.next item) ∧
      s1.heap.next = s.heap.next + 1 ∧
      (t.insertG s.heap.next item).addrs.Perm (s.heap.next :: t.addrs) ∧
      (∃ p, s1.heap.mem s.heap.next = some ⟨item, p, none, none⟩) ∧
      (s.root = none → s1.root = some s.heap.next ∧
        s1.heap.mem s.heap.next = some ⟨item, none, none, none⟩) := by
  obtain ⟨s1, hrun, hroot1, hok1, hnext, hnew, hroote⟩ := insert_spec s t hok item
  refine ⟨s1, hrun, hok1, hnext, ATree.addrs_insertG t _ item, hnew, ?_⟩
  intro he
  have h0 := hok.1
  rw [he] at h0
  cases h0
  exact ⟨by rw [hroot1]; rfl, hroote he⟩

/-- Witness for C7 at a concrete input: the empty tree is a sane state
and inserting 5 into it produces the promised fresh leaf. -/
theorem C7_insert_fresh_leaf_witness :
    ReprOK BST.new .aleaf ∧
    (∃ s1, BST.insert BST.new 5 = some s1 ∧
      ReprOK s1 (ATree.insertG .aleaf BST.new.heap.next 5) ∧
      s1.heap.next = BST.new.heap.next + 1 ∧
      (ATree.insertG .aleaf BST.new.heap.next 5).addrs.Perm
        (BST.new.heap.next :: ATree.addrs .aleaf) ∧
      (∃ p, s1.heap.mem BST.new.heap.next = some ⟨5, p, none, none⟩) ∧
      (BST.new.root = none → s1.root = some BST.new.heap.next ∧
        s1.heap.mem BST.new.heap.next = some ⟨5, none, none, none⟩)) :=
  ⟨reprOK_new, C7_insert_fresh_leaf BST.new .aleaf reprOK_new 5⟩

/-- C8: after any sequence of inserts, `min` returns exactly the least
inserted key and `max` the greatest, both absent exactly when no key
was inserted; concretely, after inserting 3, 44, 5 `min` is 3 and
`max` is 44, and on the empty tree both are absent. -/
theorem C8_minmax :
    (∀ keys : List Int, ∃ s, runInserts keys = some s ∧
      BST.min s = some (minKey? keys) ∧ BST.max s = some (maxKey? keys)) ∧
    (runInserts [3, 44, 5]).bind BST.min = some (some 3) ∧
    (runInserts [3, 44, 5]).bind BST.max = some (some 44) ∧
    (runInserts []).bind BST.min = some none ∧
    (runInserts []).bind BST.max = some none := by
  refine ⟨?_, rfl, rfl, rfl, rfl⟩
  intro keys
  obtain ⟨s1, t1, hrun, hok, hord, hperm⟩ :=
    foldl_insert_spec keys BST.new .aleaf reprOK_new trivial
  have hperm' : t1.keys.Perm keys := by simpa using hperm
  refine ⟨s1, hrun, ?_, ?_⟩
  · rw [min_spec s1 t1 hok hord, minKey?_congr_perm hperm']
  · rw [max_spec s1 t1 hok hord, maxKey?_congr_perm hperm']

/-- C9: the claim says deleting an absent key is a safe no-op and in
particular deleting the same key twice is safe, the second call a
no-op.  Deleting a key that was never present is indeed a no-op (first
conjunct, on {3,44,5} with key 99), but the second delete of the same
key is NOT safe: after `insert 1; insert 2; delete 2` the parent's
child slot still points at the freed node, so the second `delete 2`
dereferences freed memory — the run aborts with `none` (undefined
behaviour), violating the claim. -/
theorem C9_double_delete_ub :
    (run [.ins 3, .ins 44, .ins 5, .del 99]).map
      (fun s => (BST.contains s 3, BST.contains s 44, BST.contains s 5, BST.contains s 99)) =
      some (some true, some true, some true, some false) ∧
    run [.ins 1, .ins 2, .del 2, .del 2] = none :=
  ⟨rfl, rfl⟩

/-- C10 counterexample: the claim asserts that any delete on a tree
whose root has at least one child leaves `min()`/`max()` returning a
value.  Concretely: before `delete 1` the root (address 0, key 2) has
a left child (address 1, key 1); after the delete the root is still
present, but `min` follows the root's now-dangling `left` pointer into
the freed node — an undefined-behaviour access, reported as `none` —
so `min()` does not return a value. -/
theorem C10_min_after_delete_cex :
    (run [.ins 2, .ins 1]).map (fun s => (s.heap.mem 0).map Node.left) =
      some (some (some 1)) ∧
    (run [.ins 2, .ins 1, .del 1]).map (fun s => s.root) = some (some 0) ∧
    (run [.ins 2, .ins 1, .del 1]).bind BST.min = none :=
  ⟨rfl, rfl, rfl⟩

/-- C10 (amended): `delete` sets `root` to absent only when the node
matched by the search is the root itself and it has neither child;
consequently any delete on a tree whose root has at least one child
leaves `root` present (the min/max part of the original claim fails:
they may dereference a freed node through a dangling child slot).
First conjunct: a delete on a state whose root node has a child never
clears `root`.  Second conjunct: whenever a completed delete cleared
`root`, the previous root node was childless and the search matched it
at the root. -/
theorem C10_root_cleared_only_for_leaf_root :
    (∀ (s : BST) (item : Int) (s1 : BST) (r : Nat) (nd : Node),
      s.root = some r → s.heap.mem r = some nd →
      ¬(nd.left = none ∧ nd.right = none) →
      BST.delete s item = some s1 → s1.root = some r) ∧
    (∀ (s : BST) (item : Int) (s1 : BST),
      BST.delete s item = some s1 → s1.root = none →
      s.root = none ∨ ∃ r nd, s.root = some r ∧ s.heap.mem r = some nd ∧
        nd.left = none ∧ nd.right = none ∧
        search_node s.fuel s.heap (some r) item true = some (true, some r)) := by
  constructor
  · intro s item s1 r nd hroot hmem hnl hdel
    cases hsearch : search_node s.fuel s.heap (some r) item true with
    | none => simp [BST.delete, hroot, hsearch] at hdel
    | some pr =>
      obtain ⟨isRoot, node⟩ := pr
      cases node with
      | none =>
        simp only [BST.delete, hroot, hsearch, Option.some.injEq] at hdel
        rw [← hdel, hroot]
      | some a =>
        cases hdn : delete_node s.fuel s.heap (some a) with
        | none => simp [BST.delete, hroot, hsearch, hdn] at hdel
        | some pr2 =>
          obtain ⟨h2, wasLeaf⟩ := pr2
          simp only [BST.delete, hroot, hsearch, hdn, Option.some.injEq] at hdel
          cases his : isRoot with
          | false =>
            rw [← hdel, his]
            simp [hroot]
          | true =>
            cases hwl : wasLeaf with
            | false =>
              rw [← hdel, his, hwl]
              simp [hroot]
            | true =>
              exfalso
              rw [his] at hsearch
              have ha : (some a : Option Nat) = some r :=
                search_node_root s.fuel s.heap r item (some a) hsearch
              rw [hwl] at hdn
              obtain ⟨nd', hnd', hl', hr'⟩ :=
                delete_node_leaf s.fuel s.heap a h2 hdn
              have har : a = r := Option.some.inj ha
              rw [har, hmem] at hnd'
              have : nd' = nd := (Option.some.inj hnd').symm
              exact hnl ⟨this ▸ hl', this ▸ hr'⟩
  · intro s item s1 hdel hroot1
    cases hroot : s.root with
    | none => exact Or.inl rfl
    | some r =>
      refine Or.inr ?_
      cases hsearch : search_node s.fuel s.heap (some r) item true with
      | none => simp [BST.delete, hroot, hsearch] at hdel
      | some pr =>
        obtain ⟨isRoot, node⟩ := pr
        cases node with
        | none =>
          simp only [BST.delete, hroot, hsearch, Option.some.injEq] at hdel
          rw [← hdel, hroot] at hroot1
          cases hroot1
        | some a =>
          cases hdn : delete_node s.fuel s.heap (some a) with
          | none => simp [BST.delete, hroot, hsearch, hdn] at hdel
          | some pr2 =>
            obtain ⟨h2, wasLeaf⟩ := pr2
            simp only [BST.delete, hroot, hsearch, hdn, Option.some.injEq] at hdel
            rw [← hdel] at hroot1
            cases his : isRoot with
            | false =>
              exfalso
              rw [his] at hroot1
              simp [hroot] at hroot1
            | true =>
              cases hwl : wasLeaf with
              | false =>
                exfalso
                rw [his, hwl] at hroot1
                simp [hroot] at hroot1
              | true =>
                rw [his] at hsearch
                have ha : (some a : Option Nat) = some r :=
                  search_node_root s.fuel s.heap r item (some a) hsearch
                have har : a = r := Option.some.inj ha
                rw [hwl] at hdn
                obtain ⟨nd', hnd', hl', hr'⟩ :=
                  delete_node_leaf s.fuel s.heap a h2 hdn
                rw [har] at hnd' hsearch
                exact ⟨r, nd', rfl, hnd', hl', hr', hsearch⟩

/-- A concrete sane two-node state: root at address 0 holds key 1 with
a right child at address 1 holding key 2. -/
def S10 : BST :=
  ⟨⟨fun b => if b = 0 then some ⟨1, none, none, some 1⟩
             else if b = 1 then some ⟨2, some 0, none, none⟩
             else none, 2⟩, some 0⟩

/-- Witness for C10 (amended) at a concrete input: deleting key 2 from
`S10` (whose root has a right child) succeeds and leaves the root in
place. -/
theorem C10_root_cleared_only_for_leaf_root_witness :
    S10.root = some 0 ∧
    S10.heap.mem 0 = some ⟨1, none, none, some 1⟩ ∧
    ¬((⟨1, none, none, some 1⟩ : Node).left = none ∧
      (⟨1, none, none, some 1⟩ : Node).right = none) ∧
    BST.delete S10 2 = some ((BST.delete S10 2).get (by rfl)) ∧
    ((BST.delete S10 2).get (by rfl)).root = some 0 := by
  refine ⟨rfl, rfl, by simp, (Option.some_get (by rfl)).symm, ?_⟩
  exact C10_root_cleared_only_for_leaf_root.1 S10 2 _ 0 ⟨1, none, none, some 1⟩
    rfl rfl (by simp) (Option.some_get (by rfl)).symm
